/-
Verification of the matching engine of `didyoumean`:
the transposition-aware edit distance (src/lib.rs, `edit_distance`),
the shift-insert helper (src/lib.rs, `insert_and_shift`) and the
top-N shortlist maintenance loop (src/main.rs, `run_app`, lines 115-136).

Strings are modelled as lists of Unicode code points (`List Nat`).
Rust's `str::len()` is the UTF-8 byte length, modelled by `byteLen`;
`str::chars()` is the code-point list itself.  A Rust panic (out of
bounds indexing, arithmetic underflow that leads to an out of bounds
index) is modelled by `Option.none`.
-/
import Mathlib

namespace DidYouMean

/-- Number of bytes of the UTF-8 encoding of the code point `c`
(what Rust's `char::len_utf8` returns). -/
def utf8Len (c : Nat) : Nat :=
  if c < 0x80 then 1 else if c < 0x800 then 2 else if c < 0x10000 then 3 else 4

/-- Rust `str::len()`: the UTF-8 byte length of the string. -/
def byteLen (s : List Nat) : Nat := (s.map utf8Len).sum

/-! ## `edit_distance` (src/lib.rs lines 108-159)

The flat `m * n` matrix `mat = vec![0; m * n]` is a `List Nat`; all matrix
reads performed by the source are in bounds (indices are `i * m + j` with
`i < n`, `j < m`), so they are rendered with `List.getD _ _ 0`.  The
character vector accesses `search_chars[i-1]`, `search_chars[i-2]` and
`known_chars[j-1]` can go out of bounds (the table is sized by byte
length, the vectors by code-point count), so they are rendered with
`List.get?`, and the whole function returns `Option Nat`, `none` standing
for a panic.  Each Rust `for` loop running from a lower bound `lo` to an
exclusive upper bound is rendered as structural recursion on the number
of remaining iterations, carrying the loop counter. -/

/-- `for i in 1..n { mat[i * m] = i; }` with `steps = n - 1` iterations left. -/
def setRowHeads (m : Nat) : Nat → Nat → List Nat → List Nat
  | 0, _, mat => mat
  | steps + 1, i, mat => setRowHeads m steps (i + 1) (mat.set (i * m) i)

/-- `for i in 1..m { mat[i] = i; }` with `steps = m - 1` iterations left. -/
def setColHeads : Nat → Nat → List Nat → List Nat
  | 0, _, mat => mat
  | steps + 1, i, mat => setColHeads steps (i + 1) (mat.set i i)

/-- The body of the inner loop of `edit_distance`: the value stored into
`mat[i * m + j]`, computed from the already-filled entries (substitution,
deletion, insertion, and conditionally the transposition relaxation),
with `cb = known_chars[j-1]`. -/
def editCell (b : List Nat) (m i j c1 c2 cb : Nat) (mat : List Nat) : Nat :=
  let subCost := if c1 = cb then 0 else 1
  let v := min (mat.getD ((i - 1) * m + j - 1) 0 + subCost)
    (min (mat.getD ((i - 1) * m + j) 0 + 1) (mat.getD (i * m + j - 1) 0 + 1))
  if i > 1 ∧ j > 1 ∧ c1 = b.getD (j - 2) 0 ∧ c2 = b.getD (j - 1) 0
    then min v (mat.getD ((i - 2) * m + j - 2) 0 + 1) else v

/-- The inner loop `for j in 1..m { ... }` of `edit_distance`, at row `i`,
with `c1 = search_chars[i-1]`, `c2 = search_chars[i-2]` (or `' '` = 32),
`steps = m - j` iterations left. -/
def editInner (b : List Nat) (m i c1 c2 : Nat) : Nat → Nat → List Nat → Option (List Nat)
  | 0, _, mat => some mat
  | steps + 1, j, mat =>
    (b.get? (j - 1)).bind fun cb =>
      editInner b m i c1 c2 steps (j + 1) (mat.set (i * m + j) (editCell b m i j c1 c2 cb mat))

/-- The outer loop `for i in 1..n { ... }` of `edit_distance`, with
`steps = n - i` iterations left.  The row character `search_chars[i-1]`
is fetched before the inner loop runs (so it is fetched, and may go out
of bounds, even when the inner loop has no iterations). -/
def editOuter (a b : List Nat) (m : Nat) : Nat → Nat → List Nat → Option (List Nat)
  | 0, _, mat => some mat
  | steps + 1, i, mat =>
    (a.get? (i - 1)).bind fun c1 =>
      (if i > 1 then a.get? (i - 2) else some 32).bind fun c2 =>
        (editInner b m i c1 c2 (m - 1) 1 mat).bind fun mat =>
          editOuter a b m steps (i + 1) mat

/-- `edit_distance` from src/lib.rs.  `n`/`m` are the *byte* lengths plus
one (the source uses `search_term.len() + 1`), while the character
vectors hold code points; the final answer is `mat[m * n - 1]`. -/
def edit_distance (search_term known_term : List Nat) : Option Nat :=
  let n := byteLen search_term + 1
  let m := byteLen known_term + 1
  let mat := List.replicate (m * n) 0
  let mat := setRowHeads m (n - 1) 1 mat
  let mat := setColHeads (m - 1) 1 mat
  (editOuter search_term known_term m (n - 1) 1 mat).bind fun mat =>
    mat.get? (m * n - 1)

/-! ## The dynamic-programming table of the specification

`specMat a b i j` is the table of claim C1, written from the claim's own
recurrence (indices of the claim are used as written: entry `(i, j)`
reads `a[i-1]`, `a[i-2]`, `b[j-1]`, `b[j-2]`; in the `i+1, j+1` pattern
below those are positions `i`, `i-1`, `j`, `j-1`). -/
def specMat (a b : List Nat) : Nat → Nat → Nat
  | i, 0 => i
  | 0, j => j
  | i + 1, j + 1 =>
    let subCost := if a.getD i 0 = b.getD j 0 then 0 else 1
    let base := min (specMat a b i j + subCost)
      (min (specMat a b i (j + 1) + 1) (specMat a b (i + 1) j + 1))
    if i + 1 > 1 ∧ j + 1 > 1 ∧ a.getD i 0 = b.getD (j - 1) 0 ∧ a.getD (i - 1) 0 = b.getD j 0
      then min base (specMat a b (i - 1) (j - 1) + 1) else base
  termination_by i j => (i, j)
  decreasing_by all_goals (simp_wf; omega)

/-! ## `insert_and_shift` (src/lib.rs lines 79-86)

`list.insert(index, element); list.truncate(list.len() - 1)` becomes
`insertIdx` followed by `take`.  The guard compares with `list.len() - 1`
in `usize`; all claims use it on non-empty lists only, where `Nat`
truncated subtraction agrees with `usize`. -/
def insert_and_shift {T : Type} (list : List T) (index : Nat) (element : T) : List T :=
  if index > list.length - 1 then list
  else
    let inserted := list.insertIdx index element
    inserted.take (inserted.length - 1)

/-! ## The top-N selection loop (src/main.rs lines 115-136)

`run_app` keeps two parallel vectors, `top_n_words` (seeded with `""`)
and `top_n_dists` (seeded with the sentinel `search_term.len() * 10`),
and for each dictionary word runs the offer step of lines 126-135.
The claims feed the loop a stream of (candidate, distance) pairs, so the
offer step is modelled as a function of the pair; `run_app` itself
obtains the distance by calling `edit_distance` on the word.
`top_n_dists[args.number - 1]` is an out-of-bounds read when
`args.number = 0` (in `usize` the subtraction underflows); it is
rendered with `List.get?` at `number - 1`, which is `none` exactly in
that case. -/

/-- `for i in 0..number { if dist < top_n_dists[i] { insert_and_shift(..); break } }`
with `steps = number - i` iterations left. -/
def offerLoop {T : Type} (word : T) (dist : Nat) :
    Nat → Nat → List T → List Nat → Option (List T × List Nat)
  | 0, _, words, dists => some (words, dists)
  | steps + 1, i, words, dists =>
    (dists.get? i).bind fun di =>
      if dist < di then
        some (insert_and_shift words i word, insert_and_shift dists i dist)
      else offerLoop word dist steps (i + 1) words dists

/-- One iteration of the dictionary loop of `run_app` (lines 126-135):
offer the pair `(word, dist)` to the shortlist. -/
def offer {T : Type} (number : Nat) (word : T) (dist : Nat)
    (words : List T) (dists : List Nat) : Option (List T × List Nat) :=
  (dists.get? (number - 1)).bind fun worst =>
    if dist < worst then offerLoop word dist number 0 words dists
    else some (words, dists)

/-- The whole dictionary loop over a stream of (candidate, distance) pairs. -/
def runOffers {T : Type} (number : Nat) :
    List (T × Nat) → List T → List Nat → Option (List T × List Nat)
  | [], words, dists => some (words, dists)
  | p :: rest, words, dists =>
    (offer number p.1 p.2 words dists).bind fun s =>
      runOffers number rest s.1 s.2

/-- The selection of `run_app` for query `q` and capacity `number`:
`top_n_words = vec![""; number]`, `top_n_dists = vec![q.len() * 10; number]`,
then the stream is offered in order. -/
def runSelector (q : List Nat) (number : Nat) (stream : List (List Nat × Nat)) :
    Option (List (List Nat) × List Nat) :=
  runOffers number stream (List.replicate number []) (List.replicate number (byteLen q * 10))

/-- The shortlist invariant of the specification: both parallel vectors
keep exactly `number` slots and the distances are sorted non-decreasing. -/
def SelInv {T : Type} (number : Nat) (words : List T) (dists : List Nat) : Prop :=
  words.length = number ∧ dists.length = number ∧ List.Sorted (· ≤ ·) dists

/-! ## Claim C3: the literal distance values -/

/-- C3: `edit_distance` returns exactly the documented values on the five
literal (all-ASCII) cases: ("sitting","kitten") ↦ 3, ("geek","gesek") ↦ 1,
("cat","cut") ↦ 1, ("sunday","saturday") ↦ 3 and ("tset","test") ↦ 1
(the adjacent transposition costs 1, not 2). -/
theorem edit_distance_literal_cases :
    edit_distance [115, 105, 116, 116, 105, 110, 103] [107, 105, 116, 116, 101, 110] = some 3 ∧
    edit_distance [103, 101, 101, 107] [103, 101, 115, 101, 107] = some 1 ∧
    edit_distance [99, 97, 116] [99, 117, 116] = some 1 ∧
    edit_distance [115, 117, 110, 100, 97, 121] [115, 97, 116, 117, 114, 100, 97, 121] = some 3 ∧
    edit_distance [116, 115, 101, 116] [116, 101, 115, 116] = some 1 := by
  decide

/-! ## Claim C2: `edit_distance` is not total

The table is sized with the UTF-8 byte length (`search_term.len() + 1`)
while the character vectors hold one entry per code point, so any
multi-byte code point makes the row loop index `search_chars` out of
bounds: `edit_distance("é", "x")` panics (here: é = U+00E9 = 233, a
two-byte code point). -/

/-- C2 (code bug): on the input ("é", "x") the code panics (modelled by
`none`): the outer loop runs over byte positions `1..3` but
`search_chars` has a single entry. -/
theorem edit_distance_panics_on_multibyte : edit_distance [233] [120] = none := by decide

/-! ## Claim C4: the literal top-3 selection run -/

/-- C4: with capacity 3 and any query of at least one code point (whose
sentinel `len * 10` therefore exceeds every distance in the stream), the
stream ("e",5), ("b",2), ("h",8), ("a",1), ("c",2) ends in the state
([ "a", "b", "c" ], [1, 2, 2]); "b" keeps the slot ahead of the
equal-distance, later-arriving "c". -/
theorem topn_selection_literal_case (q : List Nat) (hq : 1 ≤ byteLen q) :
    runSelector q 3 [([101], 5), ([98], 2), ([104], 8), ([97], 1), ([99], 2)] =
      some ([[97], [98], [99]], [1, 2, 2]) := by
  set t := byteLen q * 10 with ht
  have h5 : 5 < t := by omega
  have h2 : 2 < t := by omega
  have h8 : 8 < t := by omega
  have s1 : offer 3 ([101] : List Nat) 5 [[], [], []] [t, t, t]
      = some ([[101], [], []], [5, t, t]) := by
    show (if 5 < t then offerLoop ([101] : List Nat) 5 3 0 [[], [], []] [t, t, t]
      else some ([[], [], []], [t, t, t])) = _
    rw [if_pos h5]
    show (if 5 < t then some (insert_and_shift [[], [], []] 0 [101], insert_and_shift [t, t, t] 0 5)
      else offerLoop ([101] : List Nat) 5 2 1 [[], [], []] [t, t, t]) = _
    rw [if_pos h5]
    rfl
  have s2 : offer 3 ([98] : List Nat) 2 [[101], [], []] [5, t, t]
      = some ([[98], [101], []], [2, 5, t]) := by
    show (if 2 < t then offerLoop ([98] : List Nat) 2 3 0 [[101], [], []] [5, t, t]
      else some ([[101], [], []], [5, t, t])) = _
    rw [if_pos h2]
    rfl
  have s3 : offer 3 ([104] : List Nat) 8 [[98], [101], []] [2, 5, t]
      = some ([[98], [101], [104]], [2, 5, 8]) := by
    show (if 8 < t then offerLoop ([104] : List Nat) 8 3 0 [[98], [101], []] [2, 5, t]
      else some ([[98], [101], []], [2, 5, t])) = _
    rw [if_pos h8]
    show (if 8 < t then
        some (insert_and_shift [[98], [101], []] 2 [104], insert_and_shift [2, 5, t] 2 8)
      else offerLoop ([104] : List Nat) 8 0 3 [[98], [101], []] [2, 5, t]) = _
    rw [if_pos h8]
    rfl
  have s4 : offer 3 ([97] : List Nat) 1 [[98], [101], [104]] [2, 5, 8]
      = some ([[97], [98], [101]], [1, 2, 5]) := by decide
  have s5 : offer 3 ([99] : List Nat) 2 [[97], [98], [101]] [1, 2, 5]
      = some ([[97], [98], [99]], [1, 2, 2]) := by decide
  show runOffers 3 [([101], 5), ([98], 2), ([104], 8), ([97], 1), ([99], 2)] [[], [], []] [t, t, t]
    = some ([[97], [98], [99]], [1, 2, 2])
  simp only [runOffers, s1, s2, s3, s4, s5, Option.some_bind]

/-- Witness for C4 at the query "x". -/
theorem topn_selection_literal_case_witness :
    runSelector [120] 3 [([101], 5), ([98], 2), ([104], 8), ([97], 1), ([99], 2)] =
      some ([[97], [98], [99]], [1, 2, 2]) :=
  topn_selection_literal_case [120] (by decide)

/-! ## Claim C8: offers at or above the tracked worst distance are dropped -/

/-- C8: whenever the last tracked distance `worst` satisfies
`worst ≤ dist`, offering `(word, dist)` leaves both vectors unchanged
(the source only enters the insertion loop when `dist < top_n_dists[number - 1]`). -/
theorem offer_ignores_distance_ge_worst {T : Type} (number : Nat) (word : T) (dist : Nat)
    (words : List T) (dists : List Nat) (worst : Nat)
    (hworst : dists.get? (number - 1) = some worst) (hge : worst ≤ dist) :
    offer number word dist words dists = some (words, dists) := by
  unfold offer
  rw [hworst, Option.some_bind, if_neg (Nat.not_lt.mpr hge)]

/-- Witness for C8: offering distance 3 while the current worst is 3
leaves the selector untouched. -/
theorem offer_ignores_distance_ge_worst_witness :
    offer 2 ([97] : List Nat) 3 [[5], [6]] [1, 3] = some ([[5], [6]], [1, 3]) :=
  offer_ignores_distance_ge_worst 2 [97] 3 [[5], [6]] [1, 3] 3 (by decide) (by decide)

/-! ## Claim C9: capacity 0

The claim says N = 0 is a valid no-op configuration.  It is not: with
`number = 0` the guard reads `top_n_dists[number - 1]`, and the `usize`
subtraction underflows, so the read is out of bounds (the distances
vector is empty); the first offered pair makes the program panic.  Only
the empty stream runs to completion. -/

/-- C9 counterexample: with capacity 0 a one-element stream does not end
in the empty shortlist; the run fails. -/
theorem selector_capacity_zero_not_noop :
    runSelector [120] 0 [([97], 1)] ≠ some ([], []) := by decide

/-- C9 amended: with capacity 0 the empty stream yields the empty
shortlist, and offering any pair at all makes the run fail (modelled by
`none`), because the guard indexes the empty distances vector. -/
theorem selector_capacity_zero_behavior :
    (∀ q : List Nat, runSelector q 0 [] = some ([], [])) ∧
    (∀ (q : List Nat) (stream : List (List Nat × Nat)), stream ≠ [] →
      runSelector q 0 stream = none) := by
  constructor
  · intro q
    rfl
  · intro q stream hne
    cases stream with
    | nil => exact absurd rfl hne
    | cons p rest => rfl

/-- Witness for C9 (amended): the concrete one-pair stream fails. -/
theorem selector_capacity_zero_behavior_witness :
    runSelector [120] 0 [([98], 2)] = none :=
  selector_capacity_zero_behavior.2 [120] [([98], 2)] (by decide)

/-! ## Claim C7: the shortlist invariant

`insert_and_shift` preserves the length of the list it works on; the
offer step inserts at the first position whose distance exceeds the
offered one, which keeps the distances sorted; and both parallel vectors
are modified with the same index, which keeps them aligned (their zip
evolves by the same `insert_and_shift` on pairs). -/

theorem insert_and_shift_length {T : Type} (list : List T) (index : Nat) (element : T) :
    (insert_and_shift list index element).length = list.length := by
  unfold insert_and_shift
  split
  · rfl
  · rename_i h
    rw [Nat.not_lt] at h
    have hle : index ≤ list.length := by omega
    dsimp only
    rw [List.length_take, List.length_insertIdx index list hle]
    omega

theorem sorted_insertIdx (l : List Nat) (i d : Nat)
    (hsort : List.Sorted (· ≤ ·) l)
    (hlow : ∀ j dj, j < i → l.get? j = some dj → dj ≤ d)
    (hhigh : ∀ di, l.get? i = some di → d ≤ di) :
    List.Sorted (· ≤ ·) (l.insertIdx i d) := by
  induction l generalizing i with
  | nil =>
    cases i with
    | zero => exact List.sorted_singleton d
    | succ i => simp
  | cons x xs ih =>
    cases i with
    | zero =>
      rw [List.insertIdx_zero, List.sorted_cons]
      refine ⟨?_, hsort⟩
      intro b hb
      have hdx : d ≤ x := hhigh x rfl
      rcases List.mem_cons.mp hb with hbx | hbxs
      · exact hbx ▸ hdx
      · exact le_trans hdx ((List.sorted_cons.mp hsort).1 b hbxs)
    | succ i =>
      rw [List.insertIdx_succ_cons, List.sorted_cons]
      have hxs : List.Sorted (· ≤ ·) xs := (List.sorted_cons.mp hsort).2
      refine ⟨?_, ih i hxs ?_ ?_⟩
      · intro b hb
        by_cases hi : i ≤ xs.length
        · rcases (List.mem_insertIdx hi).mp hb with hbd | hbxs
          · exact hbd ▸ hlow 0 x (Nat.succ_pos i) rfl
          · exact (List.sorted_cons.mp hsort).1 b hbxs
        · rw [List.insertIdx_of_length_lt xs d i (by omega)] at hb
          exact (List.sorted_cons.mp hsort).1 b hb
      · intro j dj hj hget
        exact hlow (j + 1) dj (Nat.succ_lt_succ hj) hget
      · intro di hget
        exact hhigh di hget

theorem sorted_insert_and_shift (dists : List Nat) (index dist : Nat)
    (hsort : List.Sorted (· ≤ ·) dists)
    (hlow : ∀ j dj, j < index → dists.get? j = some dj → dj ≤ dist)
    (hhigh : ∀ di, dists.get? index = some di → dist ≤ di) :
    List.Sorted (· ≤ ·) (insert_and_shift dists index dist) := by
  unfold insert_and_shift
  split
  · exact hsort
  · exact List.Pairwise.sublist (List.take_sublist _ _)
      (sorted_insertIdx dists index dist hsort hlow hhigh)

/-- What a completed inner loop of the offer step did: either no slot
beat the offered distance and the state is unchanged, or the pair was
inserted at the first index `k` (at or after the starting index) whose
distance exceeds the offered one. -/
theorem offerLoop_result {T : Type} (word : T) (dist : Nat) :
    ∀ (steps i : Nat) (words : List T) (dists : List Nat)
      (words2 : List T) (dists2 : List Nat),
      offerLoop word dist steps i words dists = some (words2, dists2) →
      (words2 = words ∧ dists2 = dists) ∨
      (∃ k, i ≤ k ∧ k < i + steps ∧
        words2 = insert_and_shift words k word ∧ dists2 = insert_and_shift dists k dist ∧
        (∀ j dj, i ≤ j → j < k → dists.get? j = some dj → dj ≤ dist) ∧
        (∃ dk, dists.get? k = some dk ∧ dist < dk)) := by
  intro steps
  induction steps with
  | zero =>
    intro i words dists words2 dists2 h
    left
    injection h with h2
    injection h2 with ha hb
    exact ⟨ha.symm, hb.symm⟩
  | succ steps ih =>
    intro i words dists words2 dists2 h
    unfold offerLoop at h
    cases hdi : dists.get? i with
    | none => rw [hdi] at h; exact absurd h (by simp)
    | some di =>
      rw [hdi, Option.some_bind] at h
      by_cases hlt : dist < di
      · rw [if_pos hlt] at h
        injection h with h2
        injection h2 with ha hb
        right
        refine ⟨i, Nat.le_refl i, by omega, ha.symm, hb.symm, ?_, di, hdi, hlt⟩
        intro j dj hij hji
        omega
      · rw [if_neg hlt] at h
        rcases ih (i + 1) words dists words2 dists2 h with hsame | ⟨k, hik, hks, hw, hd, hlowrec, hex⟩
        · exact Or.inl hsame
        · right
          refine ⟨k, by omega, by omega, hw, hd, ?_, hex⟩
          intro j dj hij hjk hget
          rcases Nat.eq_or_lt_of_le hij with heq | hlt2
          · rw [heq] at hdi
            rw [hget] at hdi
            injection hdi with hdi2
            rw [hdi2]
            omega
          · exact hlowrec j dj hlt2 hjk hget

theorem insertIdx_zip {T U : Type} :
    ∀ (k : Nat) (l1 : List T) (l2 : List U) (a : T) (b : U), l1.length = l2.length →
      (l1.insertIdx k a).zip (l2.insertIdx k b) = (l1.zip l2).insertIdx k (a, b) := by
  intro k
  induction k with
  | zero => intro l1 l2 a b _; simp
  | succ k ih =>
    intro l1 l2 a b hlen
    cases l1 with
    | nil =>
      cases l2 with
      | nil => simp
      | cons y ys => simp at hlen
    | cons x xs =>
      cases l2 with
      | nil => simp at hlen
      | cons y ys =>
        simp only [List.insertIdx_succ_cons, List.zip_cons_cons]
        rw [ih xs ys a b (by simpa using hlen)]

theorem take_zip {T U : Type} :
    ∀ (n : Nat) (l1 : List T) (l2 : List U),
      (l1.take n).zip (l2.take n) = (l1.zip l2).take n := by
  intro n
  induction n with
  | zero => intro l1 l2; simp
  | succ n ih =>
    intro l1 l2
    cases l1 with
    | nil => simp
    | cons x xs =>
      cases l2 with
      | nil => simp
      | cons y ys => simp [ih xs ys]

theorem zip_insert_and_shift {T U : Type} (l1 : List T) (l2 : List U) (k : Nat) (a : T) (b : U)
    (hlen : l1.length = l2.length) :
    (insert_and_shift l1 k a).zip (insert_and_shift l2 k b)
      = insert_and_shift (l1.zip l2) k (a, b) := by
  unfold insert_and_shift
  rw [List.length_zip, hlen, Nat.min_self]
  by_cases hk : k > l2.length - 1
  · simp only [if_pos hk]
  · simp only [if_neg hk]
    rw [Nat.not_lt] at hk
    have hk1 : k ≤ l1.length := by omega
    have hk2 : k ≤ l2.length := by omega
    have hkz : k ≤ (l1.zip l2).length := by rw [List.length_zip, hlen, Nat.min_self]; omega
    rw [List.length_insertIdx k l1 hk1, List.length_insertIdx k l2 hk2,
      List.length_insertIdx k (l1.zip l2) hkz, List.length_zip, hlen, Nat.min_self,
      take_zip, insertIdx_zip k l1 l2 a b hlen]

theorem sorted_replicate (n c : Nat) : List.Sorted (· ≤ ·) (List.replicate n c) := by
  induction n with
  | zero => exact List.sorted_nil
  | succ n ih =>
    rw [List.replicate_succ, List.sorted_cons]
    exact ⟨fun b hb => le_of_eq (List.eq_of_mem_replicate hb).symm, ih⟩

/-- C7: the sentinel-seeded initial state satisfies the shortlist
invariant, and every completed offer preserves it: both vectors keep
exactly `number` slots, the distances stay sorted non-decreasing, and
the words stay paired with their distances (the zip of the two vectors
is either unchanged or evolves by one `insert_and_shift` of the offered
pair at a single index). -/
theorem offer_preserves_shortlist_invariant (number : Nat) (q : List Nat) :
    SelInv number (List.replicate number ([] : List Nat))
      (List.replicate number (byteLen q * 10)) ∧
    (∀ (words : List (List Nat)) (dists : List Nat) (word : List Nat) (dist : Nat)
      (words2 : List (List Nat)) (dists2 : List Nat),
      SelInv number words dists →
      offer number word dist words dists = some (words2, dists2) →
      SelInv number words2 dists2 ∧
      (words2.zip dists2 = words.zip dists ∨
        ∃ i, i < number ∧ words2.zip dists2 = insert_and_shift (words.zip dists) i (word, dist))) := by
  constructor
  · exact ⟨List.length_replicate number [], List.length_replicate number _,
      sorted_replicate number _⟩
  · intro words dists word dist words2 dists2 hinv hoffer
    obtain ⟨hwlen, hdlen, hsort⟩ := hinv
    unfold offer at hoffer
    cases hworst : dists.get? (number - 1) with
    | none => rw [hworst] at hoffer; exact absurd hoffer (by simp)
    | some worst =>
      rw [hworst, Option.some_bind] at hoffer
      by_cases hlt : dist < worst
      · rw [if_pos hlt] at hoffer
        rcases offerLoop_result word dist number 0 words dists words2 dists2 hoffer with
          ⟨hw, hd⟩ | ⟨k, _, hks, hw, hd, hlow, dk, hdk, hdklt⟩
        · rw [hw, hd]
          exact ⟨⟨hwlen, hdlen, hsort⟩, Or.inl rfl⟩
        · have hklt : k < number := by omega
          have hsort2 : List.Sorted (· ≤ ·) dists2 := by
            rw [hd]
            refine sorted_insert_and_shift dists k dist hsort ?_ ?_
            · intro j dj hj hget
              exact hlow j dj (Nat.zero_le j) hj hget
            · intro di hget
              rw [hget] at hdk
              injection hdk with hdk2
              rw [hdk2]
              exact Nat.le_of_lt hdklt
          refine ⟨⟨by rw [hw, insert_and_shift_length, hwlen],
            by rw [hd, insert_and_shift_length, hdlen], hsort2⟩, Or.inr ⟨k, hklt, ?_⟩⟩
          rw [hw, hd]
          exact zip_insert_and_shift words dists k word dist (by omega)
      · rw [if_neg hlt] at hoffer
        injection hoffer with h2
        injection h2 with ha hb
        rw [← ha, ← hb]
        exact ⟨⟨hwlen, hdlen, hsort⟩, Or.inl rfl⟩

/-- Witness for C7: a concrete preserved offer with capacity 1. -/
theorem offer_preserves_shortlist_invariant_witness :
    SelInv 1 [[97]] [4] ∧
    (([[97]] : List (List Nat)).zip [4] = ([[]] : List (List Nat)).zip [10] ∨
      ∃ i, i < 1 ∧ ([[97]] : List (List Nat)).zip [4]
        = insert_and_shift (([[]] : List (List Nat)).zip [10]) i ([97], 4)) :=
  (offer_preserves_shortlist_invariant 1 [120]).2 [[]] [10] [97] 4 [[97]] [4]
    ⟨by decide, by decide, by decide⟩ (by decide)

/-! ## Claim C10: out-of-range insertion index is a no-op -/

/-- C10: on a non-empty list, `insert_and_shift` with an index strictly
greater than `length - 1` returns the list unchanged. -/
theorem insert_and_shift_index_out_of_range {T : Type} (list : List T) (index : Nat)
    (element : T) (_hne : list ≠ []) (hidx : index > list.length - 1) :
    insert_and_shift list index element = list := by
  unfold insert_and_shift
  rw [if_pos hidx]

/-- Witness for C10 at a concrete list and index. -/
theorem insert_and_shift_index_out_of_range_witness :
    insert_and_shift ([10, 20] : List Nat) 5 99 = [10, 20] :=
  insert_and_shift_index_out_of_range [10, 20] 5 99 (by decide) (by decide)


/-! ## Equivalence of `edit_distance` with the specification table -/

theorem byteLen_ascii (s : List Nat) (h : ∀ c ∈ s, c < 128) : byteLen s = s.length := by
  induction s with
  | nil => rfl
  | cons c t ih =>
    have hc : c < 128 := h c (by simp)
    have ht : byteLen t = t.length := ih (fun x hx => h x (by simp [hx]))
    show utf8Len c + byteLen t = t.length + 1
    rw [ht]
    unfold utf8Len
    rw [if_pos (by omega : c < 0x80)]
    omega

theorem get?_eq_some_getD (l : List Nat) (k : Nat) (h : k < l.length) :
    l.get? k = some (l.getD k 0) := by
  rw [List.get?_eq_get h, List.getD_eq_get l 0 h]

theorem getD_set_ne (l : List Nat) (i k v : Nat) (h : i ≠ k) :
    (l.set i v).getD k 0 = l.getD k 0 := by
  show ((l.set i v).get? k).getD 0 = (l.get? k).getD 0
  rw [List.get?_set_ne v l h]

theorem getD_set_eq (l : List Nat) (i v : Nat) (h : i < l.length) :
    (l.set i v).getD i 0 = v := by
  show ((l.set i v).get? i).getD 0 = v
  rw [List.get?_set_eq_of_lt v h]
  rfl

theorem getD_replicate_zero : ∀ (L k : Nat), (List.replicate L (0 : Nat)).getD k 0 = 0
  | 0, _ => rfl
  | _ + 1, 0 => rfl
  | L + 1, k + 1 => getD_replicate_zero L k

theorem flatIndex_inj (m i2 j2 i j : Nat) (hj2 : j2 < m) (hj : j < m)
    (h : i2 * m + j2 = i * m + j) : i2 = i ∧ j2 = j := by
  rcases Nat.lt_trichotomy i2 i with hlt | heq | hgt
  · have h1 : (i2 + 1) * m ≤ i * m := Nat.mul_le_mul_right m hlt
    rw [Nat.succ_mul] at h1
    omega
  · refine ⟨heq, ?_⟩
    rw [heq] at h
    omega
  · have h1 : (i + 1) * m ≤ i2 * m := Nat.mul_le_mul_right m hgt
    rw [Nat.succ_mul] at h1
    omega

theorem setRowHeads_length (m steps : Nat) : ∀ (start : Nat) (mat : List Nat),
    (setRowHeads m steps start mat).length = mat.length := by
  induction steps with
  | zero => intro start mat; rfl
  | succ steps ih =>
    intro start mat
    show (setRowHeads m steps (start + 1) (mat.set (start * m) start)).length = mat.length
    rw [ih (start + 1) (mat.set (start * m) start), List.length_set]

theorem setRowHeads_getD_ne (m steps : Nat) : ∀ (start : Nat) (mat : List Nat) (k : Nat),
    (∀ t, t < steps → k ≠ (start + t) * m) →
    (setRowHeads m steps start mat).getD k 0 = mat.getD k 0 := by
  induction steps with
  | zero => intro start mat k _; rfl
  | succ steps ih =>
    intro start mat k hk
    show (setRowHeads m steps (start + 1) (mat.set (start * m) start)).getD k 0 = mat.getD k 0
    rw [ih (start + 1) _ k ?later]
    case later =>
      intro t ht
      have h1 := hk (t + 1) (by omega)
      have harith : start + 1 + t = start + (t + 1) := by omega
      rw [harith]
      exact h1
    have h0 : k ≠ (start + 0) * m := hk 0 (by omega)
    rw [Nat.add_zero] at h0
    exact getD_set_ne mat (start * m) k start (Ne.symm h0)

theorem setRowHeads_getD_eq (m : Nat) (hm : 0 < m) (steps : Nat) :
    ∀ (start : Nat) (mat : List Nat) (i : Nat),
      start ≤ i → i < start + steps → i * m < mat.length →
      (setRowHeads m steps start mat).getD (i * m) 0 = i := by
  induction steps with
  | zero => intro start mat i h1 h2 _; omega
  | succ steps ih =>
    intro start mat i h1 h2 hlen
    show (setRowHeads m steps (start + 1) (mat.set (start * m) start)).getD (i * m) 0 = i
    rcases Nat.eq_or_lt_of_le h1 with heq | hlt
    · rw [setRowHeads_getD_ne m steps (start + 1) _ (i * m) ?untouched]
      case untouched =>
        intro t ht
        rw [← heq]
        intro hcontra
        have hmul : (start + 1) * m ≤ (start + 1 + t) * m := Nat.mul_le_mul_right m (by omega)
        rw [Nat.succ_mul] at hmul
        omega
      rw [← heq]
      exact getD_set_eq mat (start * m) start (by rw [heq]; exact hlen)
    · exact ih (start + 1) (mat.set (start * m) start) i (by omega) (by omega)
        (by rw [List.length_set]; exact hlen)

theorem setColHeads_length (steps : Nat) : ∀ (start : Nat) (mat : List Nat),
    (setColHeads steps start mat).length = mat.length := by
  induction steps with
  | zero => intro start mat; rfl
  | succ steps ih =>
    intro start mat
    show (setColHeads steps (start + 1) (mat.set start start)).length = mat.length
    rw [ih (start + 1) (mat.set start start), List.length_set]

theorem setColHeads_getD_ne (steps : Nat) : ∀ (start : Nat) (mat : List Nat) (k : Nat),
    (k < start ∨ start + steps ≤ k) →
    (setColHeads steps start mat).getD k 0 = mat.getD k 0 := by
  induction steps with
  | zero => intro start mat k _; rfl
  | succ steps ih =>
    intro start mat k hk
    show (setColHeads steps (start + 1) (mat.set start start)).getD k 0 = mat.getD k 0
    rw [ih (start + 1) _ k (by omega)]
    exact getD_set_ne mat start k start (by omega)

theorem setColHeads_getD_eq (steps : Nat) :
    ∀ (start : Nat) (mat : List Nat) (j : Nat),
      start ≤ j → j < start + steps → j < mat.length →
      (setColHeads steps start mat).getD j 0 = j := by
  induction steps with
  | zero => intro start mat j h1 h2 _; omega
  | succ steps ih =>
    intro start mat j h1 h2 hlen
    show (setColHeads steps (start + 1) (mat.set start start)).getD j 0 = j
    rcases Nat.eq_or_lt_of_le h1 with heq | hlt
    · rw [setColHeads_getD_ne steps (start + 1) _ j (by omega)]
      rw [← heq]
      exact getD_set_eq mat start start (by rw [heq]; exact hlen)
    · exact ih (start + 1) (mat.set start start) j (by omega) (by omega)
        (by rw [List.length_set]; exact hlen)

theorem specMat_zero_right (a b : List Nat) (i : Nat) : specMat a b i 0 = i := by
  simp [specMat]

theorem specMat_zero_left (a b : List Nat) (j : Nat) : specMat a b 0 j = j := by
  cases j with
  | zero => simp [specMat]
  | succ j => simp [specMat]

/-- The invariant of the double loop of `edit_distance`: the flat matrix
holds `m * n` entries, and every cell that the loops have already filled
(header row and column, the rows before `i`, and row `i` strictly before
column `j`) holds the value of the specification table. -/
def EditInv (a b : List Nat) (n m i j : Nat) (mat : List Nat) : Prop :=
  mat.length = m * n ∧
  ∀ i2 j2, i2 < n → j2 < m →
    (j2 = 0 ∨ i2 = 0 ∨ i2 < i ∨ (i2 = i ∧ j2 < j)) →
    mat.getD (i2 * m + j2) 0 = specMat a b i2 j2

theorem initMat_inv (a b : List Nat) (n m : Nat) (hn : n = a.length + 1)
    (hm : m = b.length + 1) :
    EditInv a b n m 1 1
      (setColHeads (m - 1) 1 (setRowHeads m (n - 1) 1 (List.replicate (m * n) 0))) := by
  have hm1 : 0 < m := by omega
  have hn1 : 0 < n := by omega
  constructor
  · rw [setColHeads_length, setRowHeads_length, List.length_replicate]
  · intro i2 j2 hi2 hj2 hcond
    have hcond2 : j2 = 0 ∨ i2 = 0 := by omega
    rcases hcond2 with hj0 | hi0
    · subst hj0
      rw [Nat.add_zero, specMat_zero_right]
      rcases Nat.eq_zero_or_pos i2 with hz | hpos
      · subst hz
        rw [Nat.zero_mul]
        rw [setColHeads_getD_ne (m - 1) 1 _ 0 (by omega)]
        rw [setRowHeads_getD_ne m (n - 1) 1 _ 0 ?zeronotrow]
        case zeronotrow =>
          intro t ht
          have : 0 < (1 + t) * m := Nat.mul_pos (by omega) hm1
          omega
        exact getD_replicate_zero (m * n) 0
      · rw [setColHeads_getD_ne (m - 1) 1 _ (i2 * m) ?colrange]
        case colrange =>
          right
          have := Nat.le_mul_of_pos_left m hpos
          omega
        refine setRowHeads_getD_eq m hm1 (n - 1) 1 _ i2 hpos (by omega) ?_
        rw [List.length_replicate]
        have h1 : (i2 + 1) * m ≤ n * m := Nat.mul_le_mul_right m (by omega)
        rw [Nat.succ_mul] at h1
        have hc : n * m = m * n := Nat.mul_comm n m
        omega
    · subst hi0
      rw [Nat.zero_mul, Nat.zero_add, specMat_zero_left]
      rcases Nat.eq_zero_or_pos j2 with hz | hpos
      · subst hz
        rw [setColHeads_getD_ne (m - 1) 1 _ 0 (by omega)]
        rw [setRowHeads_getD_ne m (n - 1) 1 _ 0 ?zeronotrow2]
        case zeronotrow2 =>
          intro t ht
          have : 0 < (1 + t) * m := Nat.mul_pos (by omega) hm1
          omega
        exact getD_replicate_zero (m * n) 0
      · refine setColHeads_getD_eq (m - 1) 1 _ j2 hpos (by omega) ?_
        rw [setRowHeads_length, List.length_replicate]
        have := Nat.le_mul_of_pos_right m hn1
        omega
theorem editCell_eq (a b : List Nat) (n m i j : Nat) (mat : List Nat)
    (hn : n = a.length + 1) (hm : m = b.length + 1)
    (hi1 : 1 ≤ i) (hin : i < n) (hj1 : 1 ≤ j) (hjm : j < m)
    (hinv : EditInv a b n m i j mat) :
    editCell b m i j (a.getD (i - 1) 0) (if i > 1 then a.getD (i - 2) 0 else 32)
      (b.getD (j - 1) 0) mat = specMat a b i j := by
  obtain ⟨hlen, hfill⟩ := hinv
  obtain ⟨i0, rfl⟩ : ∃ i0, i = i0 + 1 := ⟨i - 1, by omega⟩
  obtain ⟨j0, rfl⟩ : ∃ j0, j = j0 + 1 := ⟨j - 1, by omega⟩
  have e1 : i0 + 1 - 1 = i0 := by omega
  have e2 : i0 + 1 - 2 = i0 - 1 := by omega
  have e3 : j0 + 1 - 2 = j0 - 1 := by omega
  have e4 : j0 + 1 - 1 = j0 := by omega
  simp only [editCell, e1, e2, e3, e4]
  have hdiag : mat.getD (i0 * m + (j0 + 1) - 1) 0 = specMat a b i0 j0 := by
    have k1 : i0 * m + (j0 + 1) - 1 = i0 * m + j0 := by omega
    rw [k1]
    exact hfill i0 j0 (by omega) (by omega) (by omega)
  have hup : mat.getD (i0 * m + (j0 + 1)) 0 = specMat a b i0 (j0 + 1) :=
    hfill i0 (j0 + 1) (by omega) hjm (by omega)
  have hleft : mat.getD ((i0 + 1) * m + (j0 + 1) - 1) 0 = specMat a b (i0 + 1) j0 := by
    have k3 : (i0 + 1) * m + (j0 + 1) - 1 = (i0 + 1) * m + j0 := by omega
    rw [k3]
    exact hfill (i0 + 1) j0 hin (by omega) (by omega)
  rw [hdiag, hup, hleft]
  simp only [specMat]
  by_cases h1 : 1 < i0 + 1
  · rw [if_pos h1]
    by_cases hcond : 1 < i0 + 1 ∧ 1 < j0 + 1 ∧
        a.getD i0 0 = b.getD (j0 - 1) 0 ∧ a.getD (i0 - 1) 0 = b.getD j0 0
    · rw [if_pos hcond, if_pos hcond]
      obtain ⟨_, hc2, _, _⟩ := hcond
      have k4 : (i0 - 1) * m + (j0 + 1) - 2 = (i0 - 1) * m + (j0 - 1) := by omega
      rw [k4, hfill (i0 - 1) (j0 - 1) (by omega) (by omega) (by omega)]
    · rw [if_neg hcond, if_neg hcond]
  · have hcneg1 : ¬(1 < i0 + 1 ∧ 1 < j0 + 1 ∧ a.getD i0 0 = b.getD (j0 - 1) 0 ∧
        (if 1 < i0 + 1 then a.getD (i0 - 1) 0 else 32) = b.getD j0 0) := fun hc => h1 hc.1
    have hcneg2 : ¬(1 < i0 + 1 ∧ 1 < j0 + 1 ∧ a.getD i0 0 = b.getD (j0 - 1) 0 ∧
        a.getD (i0 - 1) 0 = b.getD j0 0) := fun hc => h1 hc.1
    rw [if_neg hcneg1, if_neg hcneg2]
theorem editInner_inv (a b : List Nat) (n m i : Nat)
    (hn : n = a.length + 1) (hm : m = b.length + 1) (hi1 : 1 ≤ i) (hin : i < n) :
    ∀ (steps j : Nat) (mat : List Nat), 1 ≤ j → j + steps = m →
      EditInv a b n m i j mat →
      ∃ mat2, editInner b m i (a.getD (i - 1) 0) (if i > 1 then a.getD (i - 2) 0 else 32)
          steps j mat = some mat2 ∧ EditInv a b n m i m mat2 := by
  intro steps
  induction steps with
  | zero =>
    intro j mat hj1 hjm hinv
    have hj : j = m := by omega
    rw [hj] at hinv
    exact ⟨mat, rfl, hinv⟩
  | succ steps ih =>
    intro j mat hj1 hjm hinv
    have hjm2 : j < m := by omega
    have hjb : j - 1 < b.length := by omega
    have hcb : b.get? (j - 1) = some (b.getD (j - 1) 0) := get?_eq_some_getD b (j - 1) hjb
    have hcell := editCell_eq a b n m i j mat hn hm hi1 hin hj1 hjm2 hinv
    rw [editInner, hcb, Option.some_bind]
    apply ih (j + 1) _ (by omega) (by omega)
    constructor
    · rw [List.length_set]
      exact hinv.1
    · intro i2 j2 hi2 hj2 hcond
      by_cases heq : i2 * m + j2 = i * m + j
      · obtain ⟨hieq, hjeq⟩ := flatIndex_inj m i2 j2 i j hj2 hjm2 heq
        subst hieq
        subst hjeq
        rw [getD_set_eq mat (i2 * m + j2) _ ?bound]
        case bound =>
          rw [hinv.1]
          have hmul : (i2 + 1) * m ≤ n * m := Nat.mul_le_mul_right m (by omega)
          rw [Nat.succ_mul] at hmul
          have hc : n * m = m * n := Nat.mul_comm n m
          omega
        exact hcell
      · rw [getD_set_ne mat (i * m + j) (i2 * m + j2) _ (fun hc => heq hc.symm)]
        apply hinv.2 i2 j2 hi2 hj2
        rcases hcond with h | h | h | ⟨hh1, hh2⟩
        · exact Or.inl h
        · exact Or.inr (Or.inl h)
        · exact Or.inr (Or.inr (Or.inl h))
        · right
          right
          right
          refine ⟨hh1, ?_⟩
          subst hh1
          rcases Nat.lt_or_ge j2 j with hlt | hge
          · exact hlt
          · exfalso
            apply heq
            have hj2j : j2 = j := by omega
            rw [hj2j]
theorem editOuter_inv (a b : List Nat) (n m : Nat)
    (hn : n = a.length + 1) (hm : m = b.length + 1) :
    ∀ (steps i : Nat) (mat : List Nat), 1 ≤ i → i + steps = n →
      EditInv a b n m i 1 mat →
      ∃ mat2, editOuter a b m steps i mat = some mat2 ∧ EditInv a b n m n 1 mat2 := by
  intro steps
  induction steps with
  | zero =>
    intro i mat hi1 hin hinv
    have hi : i = n := by omega
    rw [hi] at hinv
    exact ⟨mat, rfl, hinv⟩
  | succ steps ih =>
    intro i mat hi1 hin hinv
    have hia : i - 1 < a.length := by omega
    have hc1 : a.get? (i - 1) = some (a.getD (i - 1) 0) := get?_eq_some_getD a (i - 1) hia
    have hc2 : (if i > 1 then a.get? (i - 2) else some 32)
        = some (if i > 1 then a.getD (i - 2) 0 else 32) := by
      by_cases h1 : i > 1
      · rw [if_pos h1, if_pos h1]
        exact get?_eq_some_getD a (i - 2) (by omega)
      · rw [if_neg h1, if_neg h1]
    have hm1 : 0 < m := by omega
    obtain ⟨mat2, hrun, hinv2⟩ := editInner_inv a b n m i hn hm hi1 (by omega) (m - 1) 1 mat
      (Nat.le_refl 1) (by omega) hinv
    rw [editOuter, hc1, Option.some_bind, hc2, Option.some_bind, hrun, Option.some_bind]
    apply ih (i + 1) mat2 (by omega) (by omega)
    constructor
    · exact hinv2.1
    · intro i2 j2 hi2 hj2 hcond
      apply hinv2.2 i2 j2 hi2 hj2
      rcases hcond with h | h | h | ⟨hh1, hh2⟩
      · exact Or.inl h
      · exact Or.inr (Or.inl h)
      · rcases Nat.lt_or_ge i2 i with hlt | hge
        · exact Or.inr (Or.inr (Or.inl hlt))
        · have hi2i : i2 = i := by omega
          exact Or.inr (Or.inr (Or.inr ⟨hi2i, hj2⟩))
      · exact Or.inl (by omega)

/-- On inputs whose code points are all single-byte (so the byte length
used for the table dimensions equals the code-point count), the value
computed by `edit_distance` is exactly the bottom-right entry of the
specification's dynamic-programming table. -/
theorem edit_distance_eq_specMat (a b : List Nat)
    (ha : ∀ c ∈ a, c < 128) (hb : ∀ c ∈ b, c < 128) :
    edit_distance a b = some (specMat a b a.length b.length) := by
  have hba : byteLen a = a.length := byteLen_ascii a ha
  have hbb : byteLen b = b.length := byteLen_ascii b hb
  simp only [edit_distance, hba, hbb]
  obtain ⟨mat2, hrun, hinv⟩ := editOuter_inv a b (a.length + 1) (b.length + 1) rfl rfl
    (a.length + 1 - 1) 1 _ (Nat.le_refl 1) (by omega)
    (initMat_inv a b (a.length + 1) (b.length + 1) rfl rfl)
  rw [hrun, Option.some_bind]
  have hlen2 : mat2.length = (b.length + 1) * (a.length + 1) := hinv.1
  have hexp : (b.length + 1) * (a.length + 1)
      = a.length * (b.length + 1) + b.length + 1 := by ring
  have hidx : (b.length + 1) * (a.length + 1) - 1 = a.length * (b.length + 1) + b.length := by
    omega
  have hbound : a.length * (b.length + 1) + b.length < mat2.length := by
    rw [hlen2]
    omega
  rw [hidx, get?_eq_some_getD mat2 _ hbound]
  exact congrArg some (hinv.2 a.length b.length (by omega) (by omega)
    (Or.inr (Or.inr (Or.inl (by omega)))))
theorem specMat_symm (a b : List Nat) :
    ∀ (s i j : Nat), i + j ≤ s → specMat a b i j = specMat b a j i := by
  intro s
  induction s with
  | zero =>
    intro i j hs
    have hi : i = 0 := by omega
    have hj : j = 0 := by omega
    rw [hi, hj, specMat_zero_right, specMat_zero_right]
  | succ s ih =>
    intro i j hs
    match i, j with
    | i, 0 => rw [specMat_zero_right, specMat_zero_left]
    | 0, j => rw [specMat_zero_left, specMat_zero_right]
    | i0 + 1, j0 + 1 =>
      simp only [specMat]
      have h1 : specMat a b i0 j0 = specMat b a j0 i0 := ih i0 j0 (by omega)
      have h2 : specMat a b i0 (j0 + 1) = specMat b a (j0 + 1) i0 := ih i0 (j0 + 1) (by omega)
      have h3 : specMat a b (i0 + 1) j0 = specMat b a j0 (i0 + 1) := ih (i0 + 1) j0 (by omega)
      have h4 : specMat a b (i0 - 1) (j0 - 1) = specMat b a (j0 - 1) (i0 - 1) :=
        ih (i0 - 1) (j0 - 1) (by omega)
      rw [h1, h2, h3, h4]
      have hsub : (if a.getD i0 0 = b.getD j0 0 then (0 : Nat) else 1)
          = (if b.getD j0 0 = a.getD i0 0 then (0 : Nat) else 1) := by
        by_cases hx : a.getD i0 0 = b.getD j0 0
        · rw [if_pos hx, if_pos hx.symm]
        · rw [if_neg hx, if_neg (fun he => hx he.symm)]
      rw [hsub]
      have hmin : min (specMat b a (j0 + 1) i0 + 1) (specMat b a j0 (i0 + 1) + 1)
          = min (specMat b a j0 (i0 + 1) + 1) (specMat b a (j0 + 1) i0 + 1) :=
        Nat.min_comm _ _
      rw [hmin]
      by_cases hc : i0 + 1 > 1 ∧ j0 + 1 > 1 ∧
          a.getD i0 0 = b.getD (j0 - 1) 0 ∧ a.getD (i0 - 1) 0 = b.getD j0 0
      · rw [if_pos hc, if_pos (show j0 + 1 > 1 ∧ i0 + 1 > 1 ∧
          b.getD j0 0 = a.getD (i0 - 1) 0 ∧ b.getD (j0 - 1) 0 = a.getD i0 0 from
          ⟨hc.2.1, hc.1, hc.2.2.2.symm, hc.2.2.1.symm⟩)]
      · have hc2 : ¬(j0 + 1 > 1 ∧ i0 + 1 > 1 ∧ b.getD j0 0 = a.getD (i0 - 1) 0 ∧
            b.getD (j0 - 1) 0 = a.getD i0 0) :=
          fun h5 => hc ⟨h5.2.1, h5.1, h5.2.2.2.symm, h5.2.2.1.symm⟩
        rw [if_neg hc, if_neg hc2]

/-! ## Claim C1: `edit_distance` against the specification table -/

/-- C1 counterexample: on ("é", "") the claimed equality with the
specification table (whose dimensions count code points) fails: the code
panics because the table is sized with the byte length. -/
theorem edit_distance_spec_table_fails_on_multibyte :
    edit_distance [233] [] ≠
      some (specMat [233] [] (List.length [233]) (List.length ([] : List Nat))) := by
  rw [show edit_distance [233] [] = none from by decide]
  exact fun h => Option.noConfusion h

/-- C1 (amended): on inputs made of single-byte code points (where the
byte length used to size the table equals the code-point count),
`edit_distance` returns exactly the table value `mat[|a|][|b|]` of the
specification's recurrence. -/
theorem edit_distance_matches_spec_table (a b : List Nat)
    (ha : ∀ c ∈ a, c < 128) (hb : ∀ c ∈ b, c < 128) :
    edit_distance a b = some (specMat a b a.length b.length) :=
  edit_distance_eq_specMat a b ha hb

/-- Witness for C1 (amended) at ("cat", "cut"). -/
theorem edit_distance_matches_spec_table_witness :
    edit_distance [99, 97, 116] [99, 117, 116]
      = some (specMat [99, 97, 116] [99, 117, 116] 3 3) :=
  edit_distance_matches_spec_table [99, 97, 116] [99, 117, 116] (by decide) (by decide)

/-! ## Claim C5: distances to the empty string -/

/-- C5 counterexample: for s = "é" the code does not return the
code-point length 1: `edit_distance("", s)` returns the byte length 2
and `edit_distance(s, "")` panics. -/
theorem edit_distance_empty_cases_fail_multibyte :
    ¬(edit_distance [] [233] = some (List.length [233]) ∧
      edit_distance [233] [] = some (List.length [233])) := by decide

/-- C5 (amended): for every sequence of single-byte code points,
the distance to the empty string in either direction is its length. -/
theorem edit_distance_empty_cases_ascii (s : List Nat) (h : ∀ c ∈ s, c < 128) :
    edit_distance [] s = some s.length ∧ edit_distance s [] = some s.length := by
  constructor
  · rw [edit_distance_eq_specMat [] s (by simp) h]
    simp [specMat_zero_left]
  · rw [edit_distance_eq_specMat s [] h (by simp)]
    simp [specMat_zero_right]

/-- Witness for C5 (amended) at "cat". -/
theorem edit_distance_empty_cases_ascii_witness :
    edit_distance [] [99, 97, 116] = some (List.length [99, 97, 116]) ∧
    edit_distance [99, 97, 116] [] = some (List.length [99, 97, 116]) :=
  edit_distance_empty_cases_ascii [99, 97, 116] (by decide)

/-! ## Claim C6: symmetry -/

/-- C6 counterexample: symmetry fails on ("", "é"): the first direction
returns the byte length 2 while the swapped one panics. -/
theorem edit_distance_not_symm_multibyte :
    edit_distance [] [233] ≠ edit_distance [233] [] := by decide

/-- C6 (amended): on inputs made of single-byte code points the
distance is symmetric (the recurrence and the transposition condition
are invariant under swapping the two strings). -/
theorem edit_distance_symm_ascii (a b : List Nat)
    (ha : ∀ c ∈ a, c < 128) (hb : ∀ c ∈ b, c < 128) :
    edit_distance a b = edit_distance b a := by
  rw [edit_distance_eq_specMat a b ha hb, edit_distance_eq_specMat b a hb ha]
  exact congrArg some (specMat_symm a b (a.length + b.length) a.length b.length (Nat.le_refl _))

/-- Witness for C6 (amended) at ("cat", "sun"). -/
theorem edit_distance_symm_ascii_witness :
    edit_distance [99, 97, 116] [115, 117, 110] = edit_distance [115, 117, 110] [99, 97, 116] :=
  edit_distance_symm_ascii [99, 97, 116] [115, 117, 110] (by decide) (by decide)

end DidYouMean
